import Mathlib

/-!
Shallow embedding of the price-comparison core of
`src/best deal.eg/search for best deal.py`.

Conventions of the embedding:
* Python `str` values manipulated character by character are modelled as
  `List Char`; product fields that are only stored or compared for equality
  stay `String`.
* Python `float` prices are modelled as `ℚ`: every price literal handled by
  the program is a short decimal string, and on those the float operations
  performed (parsing, `<`, `min`, sort keys) coincide with exact rational
  arithmetic.
* Character class tests model the ASCII fragment of the Python predicates
  (`str.isalnum`, `str.isspace`, `re` class `\d`, `str.lower`), which is the
  fragment exercised by the program and by the specification examples.
* Fallible operations return `Option`; the SQLite table is a `List` of rows
  whose `INSERT OR REPLACE` semantics on the `UNIQUE(name, website)`
  constraint is made explicit.
-/

/-- The `Product` dataclass of the source: name, price, website, url and a
timestamp (modelled as a natural number; the program only stores it). -/
structure Product where
  name : String
  price : ℚ
  website : String
  url : String
  ts : ℕ
deriving DecidableEq, Repr

/-! ## Text normalization (`WebScraper._clean_text_for_comparison`) -/

/-- ASCII fragment of Python `str.lower` applied to one character. -/
def lowerChar (c : Char) : Char :=
  match c with
  | 'A' => 'a' | 'B' => 'b' | 'C' => 'c' | 'D' => 'd' | 'E' => 'e'
  | 'F' => 'f' | 'G' => 'g' | 'H' => 'h' | 'I' => 'i' | 'J' => 'j'
  | 'K' => 'k' | 'L' => 'l' | 'M' => 'm' | 'N' => 'n' | 'O' => 'o'
  | 'P' => 'p' | 'Q' => 'q' | 'R' => 'r' | 'S' => 's' | 'T' => 't'
  | 'U' => 'u' | 'V' => 'v' | 'W' => 'w' | 'X' => 'x' | 'Y' => 'y'
  | 'Z' => 'z'
  | c => c

/-- Python `str.lower` over a whole string. -/
def lowerS (l : List Char) : List Char := l.map lowerChar

/-- The character filter of `_clean_text_for_comparison`:
`c.isalnum() or c.isspace() or c == '-'`. -/
def keepChar (c : Char) : Bool :=
  c.isAlphanum || c.isWhitespace || c == '-'

/-- Python `str.split()` (split on whitespace runs, dropping empty pieces),
with an accumulator for the word being read (kept reversed). -/
def splitWsAux : List Char → List Char → List (List Char)
  | [], acc => if acc.isEmpty then [] else [acc.reverse]
  | c :: cs, acc =>
      if c.isWhitespace then
        if acc.isEmpty then splitWsAux cs [] else acc.reverse :: splitWsAux cs []
      else splitWsAux cs (c :: acc)

/-- Python `str.split()` on a character list. -/
def splitWs (l : List Char) : List (List Char) := splitWsAux l []

/-- Python `' '.join(words)`. -/
def joinWords : List (List Char) → List Char
  | [] => []
  | [w] => w
  | w :: ws => w ++ ' ' :: joinWords ws

/-- `WebScraper._clean_text_for_comparison`: keep only alphanumerics,
whitespace and hyphens, lowercase, and re-join the whitespace-split words
with single spaces. -/
def clean_text_for_comparison (t : List Char) : List Char :=
  joinWords (splitWs (lowerS (t.filter keepChar)))

/-- Removal of all internal spaces, as used by `_exact_text_match` when it
compares `t1.replace(' ', '')` with `t2.replace(' ', '')`. -/
def despace (t : List Char) : List Char := t.filter (fun c => !(c == ' '))

/-! ## Price parsing (`WebScraper._extract_price`, the second definition in
the class body, which overrides the first) -/

/-- The cleaning step `re.sub(r'[^\d.,]', '', price_text)`: keep only digits,
periods and commas. -/
def cleanPrice (s : List Char) : List Char :=
  s.filter (fun c => c.isDigit || c == '.' || c == ',')

/-- One character of `price_text.replace(',', '.')`. -/
def commaToDot (c : Char) : Char := if c == ',' then '.' else c

/-- The separator disambiguation of `_extract_price`: with both a comma and
a period present drop every comma, with only commas present turn each comma
into a period, otherwise leave the text alone. -/
def handleSeparators (t : List Char) : List Char :=
  if t.contains ',' && t.contains '.' then t.filter (fun c => !(c == ','))
  else if t.contains ',' then t.map commaToDot
  else t

/-- Value of a digit string, most significant digit first. -/
def digitsToNat (l : List Char) : ℕ :=
  l.foldl (fun a c => 10 * a + (c.toNat - 48)) 0

/-- Python `float(...)` restricted to strings of digits, periods and commas
(the only strings the pipeline can feed it): the conversion succeeds exactly
when the string has at least one digit, at most one period and no other
character.  The result is kept as integer part, fraction digits value and
fraction length, so that concrete runs stay kernel-computable. -/
def parseFloatParts (t : List Char) : Option (ℕ × ℕ × ℕ) :=
  if t.any Char.isDigit && t.all (fun c => c.isDigit || c == '.')
      && decide (t.count '.' ≤ 1) then
    some (digitsToNat (t.takeWhile (fun c => !(c == '.'))),
      digitsToNat ((t.dropWhile (fun c => !(c == '.'))).drop 1),
      ((t.dropWhile (fun c => !(c == '.'))).drop 1).length)
  else none

/-- The rational value denoted by the three parts. -/
def partsToQ (p : ℕ × ℕ × ℕ) : ℚ :=
  (p.1 : ℚ) + (p.2.1 : ℚ) / 10 ^ p.2.2

/-- Python `float(...)` on the pipeline strings, as a rational. -/
def parseFloatQ (t : List Char) : Option ℚ :=
  (parseFloatParts t).map partsToQ

/-- `WebScraper._extract_price`: clean, disambiguate separators, convert;
any failure yields `none`. -/
def extract_price (s : List Char) : Option ℚ :=
  parseFloatQ (handleSeparators (cleanPrice s))

/-! ## Relevance (`WebScraper._check_relevance`) -/

/-- Is the first list a prefix of the second (Boolean). -/
def startsWithL : List Char → List Char → Bool
  | [], _ => true
  | _ :: _, [] => false
  | c :: cs, d :: ds => c == d && startsWithL cs ds

/-- Python substring membership `needle in hay` on character lists. -/
def isSubstr (needle : List Char) : List Char → Bool
  | [] => needle.isEmpty
  | d :: ds => startsWithL needle (d :: ds) || isSubstr needle ds

/-- The critical-term gate of `_check_relevance`: the list
`['lenovo', 'legion', 'laptop']` when the lowercased space-joined query
contains the phrase `lenovo legion`, otherwise the empty list. -/
def criticalTerms (terms : List (List Char)) : List (List Char) :=
  if isSubstr ("lenovo legion".data) (lowerS (joinWords terms)) then
    ["lenovo".data, "legion".data, "laptop".data]
  else []

/-- Number of query terms appearing (lowercased) as substrings of the
already lowercased product name. -/
def matchCount (pname : List Char) (terms : List (List Char)) : ℕ :=
  (terms.filter (fun t => isSubstr (lowerS t) pname)).length

/-- `WebScraper._check_relevance`: reject empty inputs, apply the critical
term gate, then accept when the matched fraction reaches the 0.4 threshold.
The source compares `matches / len(search_terms) >= 0.4` on floats; with
the term list nonempty this is the rational bound `matches / len ≥ 2/5`
(exact at every fraction of small integers the program can form), which is
stated here by cross multiplication to keep the definition computable by
the kernel; the fraction form is recovered in the relevance theorem. -/
def check_relevance (pn : List Char) (terms : List (List Char)) : Bool :=
  if pn.isEmpty || terms.isEmpty then false
  else if !(criticalTerms terms).isEmpty
      && !((criticalTerms terms).all (fun t => isSubstr t (lowerS pn))) then
    false
  else decide (2 * terms.length ≤ 5 * matchCount (lowerS pn) terms)

/-! ## Ranking (`PriceComparisonTool.search_products`) -/

/-- One insertion step of a stable insertion sort on the price key.  The
source ranks with Python sorted and key price, which is specified to
be a stable sort by price; a stable insertion sort computes the same list. -/
def insertByPrice (x : Product) : List Product → List Product
  | [] => [x]
  | y :: ys => if x.price ≤ y.price then x :: y :: ys else y :: insertByPrice x ys

/-- Stable sort of offers by ascending price. -/
def sortByPrice : List Product → List Product
  | [] => []
  | x :: xs => insertByPrice x (sortByPrice xs)

/-- `PriceComparisonTool.search_products`: concatenate the per-site result
lists (Amazon, then Noon, then Carrefour) and sort them by price.  Failing
or empty sites contribute empty lists. -/
def search_products (amazon noon carrefour : List Product) : List Product :=
  sortByPrice (amazon ++ noon ++ carrefour)

/-! ## Per-site scraping filter (`WebScraper.scrape_amazon`,
`scrape_noon`, `scrape_carrefour`: the price gate on each listing) -/

/-- A raw listing as handed to the core by a storefront page: the name text,
the price text and the product link. -/
structure RawItem where
  nameText : String
  priceText : String
  url : String

/-- The common per-item logic of the three scrapers once the page elements
are in hand: parse the price text and keep the listing only when the parse
succeeded with a Python-truthy value (the source line `if not price:
continue` drops both None and 0.0). -/
def scrapeItems (website : String) (ts : ℕ) (items : List RawItem) :
    List Product :=
  items.filterMap (fun it =>
    match extract_price it.priceText.data with
    | none => none
    | some p =>
        if p = 0 then none
        else some ⟨it.nameText, p, website, it.url, ts⟩)

/-! ## Persistence (`DatabaseManager`) -/

/-- Does a row collide with product `p` on the `UNIQUE(name, website)`
constraint of the products table. -/
def sameKey (p r : Product) : Bool :=
  r.name == p.name && r.website == p.website

/-- SQLite `INSERT OR REPLACE` on the products table: the row colliding
with `p` on `(name, website)` disappears and the new row is appended. -/
def upsert (db : List Product) (p : Product) : List Product :=
  db.filter (fun r => !(sameKey p r)) ++ [p]

/-- `DatabaseManager.save_product`: a no-op on an empty name, otherwise a
blind insert-or-replace. -/
def save_product (db : List Product) (p : Product) : List Product :=
  if p.name = "" then db else upsert db p

/-- The query of `save_best_deal`: `SELECT price FROM products WHERE name =
? ORDER BY price ASC LIMIT 1`, i.e. the least stored price for the name. -/
def minQ : List ℚ → Option ℚ
  | [] => none
  | q :: qs =>
      match minQ qs with
      | none => some q
      | some m => some (min q m)

/-- Least stored price for a product name. -/
def lookup_min_price (db : List Product) (n : String) : Option ℚ :=
  minQ ((db.filter (fun r => r.name == n)).map (fun r => r.price))

/-- `DatabaseManager.save_best_deal`: a no-op on an empty name; otherwise
insert-or-replace exactly when no row with the name exists or the least
stored price for the name is above the new price.  The boolean reports
whether the write happened. -/
def save_best_deal (db : List Product) (p : Product) : List Product × Bool :=
  if p.name = "" then (db, false)
  else
    match lookup_min_price db p.name with
    | none => (upsert db p, true)
    | some m => if p.price < m then (upsert db p, true) else (db, false)

/-- Rows of the table holding a given `(name, website)` key. -/
def countKey (db : List Product) (n w : String) : ℕ :=
  (db.filter (fun r => r.name == n && r.website == w)).length

/-! ## Lemmas about the stable sort by price -/

lemma insertByPrice_perm (x : Product) : ∀ l : List Product,
    List.Perm (insertByPrice x l) (x :: l)
  | [] => List.Perm.refl _
  | y :: ys => by
      unfold insertByPrice
      by_cases h : x.price ≤ y.price
      · rw [if_pos h]
      · rw [if_neg h]
        exact ((insertByPrice_perm x ys).cons y).trans (List.Perm.swap x y ys)

lemma sortByPrice_perm : ∀ l : List Product, List.Perm (sortByPrice l) l
  | [] => List.Perm.refl _
  | x :: xs =>
      ((insertByPrice_perm x (sortByPrice xs)).trans
        ((sortByPrice_perm xs).cons x))

lemma mem_insertByPrice {z x : Product} {l : List Product} :
    z ∈ insertByPrice x l ↔ z = x ∨ z ∈ l := by
  rw [(insertByPrice_perm x l).mem_iff, List.mem_cons]

lemma insertByPrice_sorted (x : Product) : ∀ {l : List Product},
    l.Pairwise (fun a b => a.price ≤ b.price) →
    (insertByPrice x l).Pairwise (fun a b => a.price ≤ b.price) := by
  intro l
  induction l with
  | nil => intro _; simp [insertByPrice]
  | cons y ys ih =>
      intro h
      rw [List.pairwise_cons] at h
      unfold insertByPrice
      by_cases hx : x.price ≤ y.price
      · rw [if_pos hx]
        refine List.Pairwise.cons ?_ (List.Pairwise.cons h.1 h.2)
        intro z hz
        rcases List.mem_cons.mp hz with rfl | hz
        · exact hx
        · exact hx.trans (h.1 z hz)
      · rw [if_neg hx]
        refine List.Pairwise.cons ?_ (ih h.2)
        intro z hz
        rcases mem_insertByPrice.mp hz with rfl | hz
        · exact le_of_not_le hx
        · exact h.1 z hz

lemma sortByPrice_sorted : ∀ l : List Product,
    (sortByPrice l).Pairwise (fun a b => a.price ≤ b.price)
  | [] => List.Pairwise.nil
  | x :: xs => insertByPrice_sorted x (sortByPrice_sorted xs)

lemma insertByPrice_filter (q : ℚ) (x : Product) : ∀ l : List Product,
    (insertByPrice x l).filter (fun z => decide (z.price = q)) =
      if x.price = q then x :: l.filter (fun z => decide (z.price = q))
      else l.filter (fun z => decide (z.price = q))
  | [] => by
      by_cases hq : x.price = q <;>
        simp [insertByPrice, List.filter_cons, hq]
  | y :: ys => by
      unfold insertByPrice
      by_cases hx : x.price ≤ y.price
      · rw [if_pos hx]
        by_cases hq : x.price = q <;> simp [List.filter_cons, hq]
      · rw [if_neg hx]
        have hyx : y.price < x.price := not_le.mp hx
        by_cases hq : x.price = q
        · have hy : ¬(y.price = q) := fun hcon => absurd (hq ▸ hcon) (ne_of_lt hyx)
          simp [List.filter_cons, hy, insertByPrice_filter q x ys, hq]
        · by_cases hy : y.price = q <;>
            simp [List.filter_cons, hy, insertByPrice_filter q x ys, hq]

lemma sortByPrice_filter (q : ℚ) : ∀ l : List Product,
    (sortByPrice l).filter (fun z => decide (z.price = q)) =
      l.filter (fun z => decide (z.price = q))
  | [] => rfl
  | x :: xs => by
      unfold sortByPrice
      rw [insertByPrice_filter q x (sortByPrice xs), sortByPrice_filter q xs]
      by_cases hq : x.price = q <;> simp [List.filter_cons, hq]

/-! ## Lemmas about the persisted store -/

lemma countKey_upsert {db : List Product} {p : Product} {n w : String}
    (h : countKey db n w ≤ 1) : countKey (upsert db p) n w ≤ 1 := by
  unfold countKey upsert
  rw [List.filter_append, List.length_append]
  by_cases hk : p.name = n ∧ p.website = w
  · have h1 : (db.filter (fun r => !(sameKey p r))).filter
        (fun r => r.name == n && r.website == w) = [] := by
      rw [List.filter_eq_nil_iff]
      intro r hr
      have hs : sameKey p r = false := by
        have := (List.mem_filter.mp hr).2
        simpa using this
      unfold sameKey at hs
      rcases hk with ⟨rfl, rfl⟩
      simp only [Bool.and_eq_false_iff, beq_eq_false_iff_ne] at hs
      simp only [Bool.and_eq_true, beq_iff_eq]
      rintro ⟨h2, h3⟩
      rcases hs with hs | hs <;> [exact hs h2; exact hs h3]
    rw [h1]
    have h2 : ([p].filter (fun r => r.name == n && r.website == w)).length ≤ 1 :=
      List.Sublist.length_le (List.filter_sublist _)
    simpa using h2
  · have h2 : [p].filter (fun r => r.name == n && r.website == w) = [] := by
      rw [List.filter_eq_nil_iff]
      intro r hr
      rw [List.mem_singleton] at hr
      subst hr
      simp only [Bool.and_eq_true, beq_iff_eq]
      rintro ⟨h2, h3⟩
      exact hk ⟨h2, h3⟩
    rw [h2]
    simp only [List.length_nil, Nat.add_zero]
    calc ((db.filter (fun r => !(sameKey p r))).filter
            (fun r => r.name == n && r.website == w)).length
        ≤ (db.filter (fun r => r.name == n && r.website == w)).length :=
          List.Sublist.length_le (List.Sublist.filter _ (List.filter_sublist _))
      _ ≤ 1 := h

lemma minQ_append_singleton : ∀ (L : List ℚ) (x : ℚ),
    ∃ m, minQ (L ++ [x]) = some m ∧ m ≤ x
  | [], x => ⟨x, rfl, le_refl x⟩
  | q :: L, x => by
      obtain ⟨m, hm, hle⟩ := minQ_append_singleton L x
      refine ⟨min q m, ?_, (min_le_right q m).trans hle⟩
      show minQ (q :: (L ++ [x])) = some (min q m)
      unfold minQ
      rw [hm]

lemma lookup_min_price_upsert (db : List Product) (p : Product) :
    ∃ m, lookup_min_price (upsert db p) p.name = some m ∧ m ≤ p.price := by
  unfold lookup_min_price upsert
  rw [List.filter_append, List.map_append]
  have hp : [p].filter (fun r => r.name == p.name) = [p] := by
    simp [List.filter_cons]
  rw [hp]
  exact minQ_append_singleton _ p.price

/-! ## Lemmas about price parsing -/

lemma handleSeparators_nodigit {t : List Char}
    (h : t.all (fun c => !c.isDigit) = true) :
    (handleSeparators t).all (fun c => !c.isDigit) = true := by
  rw [List.all_eq_true] at h ⊢
  intro c hc
  unfold handleSeparators at hc
  split at hc
  · exact h c (List.mem_of_mem_filter hc)
  · split at hc
    · obtain ⟨c0, hc0, hmap⟩ := List.mem_map.mp hc
      unfold commaToDot at hmap
      by_cases hcomma : c0 == ','
      · rw [if_pos hcomma] at hmap
        subst hmap
        decide
      · rw [if_neg hcomma] at hmap
        subst hmap
        exact h c0 hc0
    · exact h c hc

lemma parseFloatParts_none_of_nodigit {t : List Char}
    (h : t.all (fun c => !c.isDigit) = true) : parseFloatParts t = none := by
  unfold parseFloatParts
  have hany : t.any Char.isDigit = false := by
    rw [List.any_eq_false]
    intro c hc
    have := List.all_eq_true.mp h c hc
    simpa using this
  rw [hany]
  simp

lemma extract_price_none_of_nodigit {s : List Char}
    (h : (cleanPrice s).all (fun c => !c.isDigit) = true) :
    extract_price s = none := by
  unfold extract_price parseFloatQ
  rw [parseFloatParts_none_of_nodigit (handleSeparators_nodigit h)]
  rfl

lemma extract_price_nonneg {s : List Char} {q : ℚ}
    (h : extract_price s = some q) : 0 ≤ q := by
  unfold extract_price parseFloatQ at h
  cases hp : parseFloatParts (handleSeparators (cleanPrice s)) with
  | none => rw [hp] at h; exact absurd h (by simp)
  | some parts =>
      rw [hp] at h
      simp only [Option.map_some', Option.some.injEq] at h
      subst h
      unfold partsToQ
      positivity

/-! ## Lemmas about text normalization -/

lemma mem_joinWords : ∀ (ws : List (List Char)) (c : Char),
    c ∈ joinWords ws → c = ' ' ∨ ∃ w, w ∈ ws ∧ c ∈ w
  | [], c => by simp [joinWords]
  | [w], c => by
      intro hc
      exact Or.inr ⟨w, List.mem_singleton_self w, hc⟩
  | w :: w2 :: ws, c => by
      intro hc
      show c = ' ' ∨ ∃ u, u ∈ w :: w2 :: ws ∧ c ∈ u
      have hc2 : c ∈ w ++ ' ' :: joinWords (w2 :: ws) := hc
      rcases List.mem_append.mp hc2 with hw | hrest
      · exact Or.inr ⟨w, List.mem_cons_self w _, hw⟩
      · rcases List.mem_cons.mp hrest with rfl | hjoin
        · exact Or.inl rfl
        · rcases mem_joinWords (w2 :: ws) c hjoin with hsp | ⟨u, hu, hcu⟩
          · exact Or.inl hsp
          · exact Or.inr ⟨u, List.mem_cons_of_mem w hu, hcu⟩

lemma splitWsAux_mem : ∀ (l acc : List Char) (w : List Char) (c : Char),
    w ∈ splitWsAux l acc → c ∈ w →
    (c ∈ l ∧ c.isWhitespace = false) ∨ c ∈ acc
  | [], acc, w, c => by
      intro hw hc
      unfold splitWsAux at hw
      split at hw
      · exact absurd hw (List.not_mem_nil w)
      · rw [List.mem_singleton] at hw
        subst hw
        exact Or.inr (List.mem_reverse.mp hc)
  | x :: xs, acc, w, c => by
      intro hw hc
      unfold splitWsAux at hw
      by_cases hx : x.isWhitespace
      · rw [if_pos hx] at hw
        have hrec : w ∈ splitWsAux xs [] →
            (c ∈ x :: xs ∧ c.isWhitespace = false) ∨ c ∈ acc := by
          intro hw2
          rcases splitWsAux_mem xs [] w c hw2 hc with ⟨hmem, hws⟩ | hnil
          · exact Or.inl ⟨List.mem_cons_of_mem x hmem, hws⟩
          · exact absurd hnil (List.not_mem_nil c)
        split at hw
        · exact hrec hw
        · rcases List.mem_cons.mp hw with rfl | hw2
          · exact Or.inr (List.mem_reverse.mp hc)
          · exact hrec hw2
      · rw [if_neg hx] at hw
        rcases splitWsAux_mem xs (x :: acc) w c hw hc with ⟨hmem, hws⟩ | hacc
        · exact Or.inl ⟨List.mem_cons_of_mem x hmem, hws⟩
        · rcases List.mem_cons.mp hacc with rfl | hacc2
          · exact Or.inl ⟨List.mem_cons_self c xs, Bool.eq_false_iff.mpr hx⟩
          · exact Or.inr hacc2

lemma lowerChar_isAlphanum {c : Char} (h : c.isAlphanum = true) :
    (lowerChar c).isAlphanum = true := by
  unfold lowerChar
  split <;> first | decide | exact h

lemma lowerChar_of_isWhitespace {c : Char} (h : c.isWhitespace = true) :
    lowerChar c = c := by
  have : c = ' ' ∨ c = '\t' ∨ c = '\r' ∨ c = '\n' := by
    have hws := h
    unfold Char.isWhitespace at hws
    simp only [Bool.or_eq_true, decide_eq_true_eq] at hws
    tauto
  rcases this with rfl | rfl | rfl | rfl <;> rfl

/-! ## Claim C1 -/

def rA500 : Product := ⟨"x", 500, "Amazon Egypt", "u", 0⟩

def rA700 : Product := ⟨"x", 700, "Amazon Egypt", "u", 1⟩

def rN600 : Product := ⟨"x", 600, "Noon Egypt", "u", 1⟩

/-- C1 counterexample: the claim fails on the code.  After `save_product`
of a 500 record for name `x`, a second `save_product` of a 700 record for
the same name and website blindly replaces it, so the stored price for the
name increases from 500 to 700; and saving records for the same name from
two websites leaves two rows for that name (the table is unique only per
`(name, website)`). -/
theorem C1_claim_false :
    lookup_min_price (save_product [] rA500) "x" = some 500 ∧
    lookup_min_price (save_product (save_product [] rA500) rA700) "x"
      = some 700 ∧
    (500 : ℚ) < 700 ∧
    ((save_product (save_product [] rA500) rN600).filter
        (fun r => r.name == "x")).length = 2 := by decide

/-- C1 amended: the store keeps at most one row per `(name, website)` pair
(so a name can have one row per source), and across `save_best_deal`
operations the least stored price for a name never increases; `save_product`
is the blind replace that can increase it. -/
theorem C1_store_invariants :
    (∀ (db : List Product) (p : Product) (n w : String),
      countKey db n w ≤ 1 → countKey (save_product db p) n w ≤ 1) ∧
    (∀ (db : List Product) (p : Product) (n w : String),
      countKey db n w ≤ 1 → countKey (save_best_deal db p).1 n w ≤ 1) ∧
    (∀ (db : List Product) (p : Product) (m : ℚ),
      lookup_min_price db p.name = some m →
      ∃ m2, lookup_min_price (save_best_deal db p).1 p.name = some m2 ∧
        m2 ≤ m) := by
  refine ⟨?_, ?_, ?_⟩
  · intro db p n w h
    unfold save_product
    split
    · exact h
    · exact countKey_upsert h
  · intro db p n w h
    unfold save_best_deal
    split
    · exact h
    · split
      · exact countKey_upsert h
      · split
        · exact countKey_upsert h
        · exact h
  · intro db p m hm
    unfold save_best_deal
    split
    · exact ⟨m, hm, le_refl m⟩
    · split
      · next heq => rw [hm] at heq; cases heq
      · next m' heq =>
          rw [hm] at heq
          injection heq with heq'
          subst heq'
          split
          · next hlt =>
              obtain ⟨m2, hm2, hle⟩ := lookup_min_price_upsert db p
              exact ⟨m2, hm2, hle.trans (le_of_lt hlt)⟩
          · exact ⟨m, hm, le_refl m⟩

/-- C1 witness: the amended statement applied at concrete stores. -/
theorem C1_witness :
    (countKey (save_product [] rA500) "x" "Amazon Egypt" ≤ 1) ∧
    (countKey (save_best_deal [rA500] rA700).1 "x" "Amazon Egypt" ≤ 1) ∧
    (∃ m2, lookup_min_price (save_best_deal [rA500] rA700).1 rA700.name
        = some m2 ∧ m2 ≤ 500) :=
  ⟨C1_store_invariants.1 [] rA500 "x" "Amazon Egypt" (by decide),
   C1_store_invariants.2.1 [rA500] rA700 "x" "Amazon Egypt" (by decide),
   C1_store_invariants.2.2 [rA500] rA700 500 (by decide)⟩

/-! ## Claim C2 -/

def pNoName : Product := ⟨"", 100, "w", "u", 0⟩

def seqP (pr : ℚ) (ts : ℕ) : Product := ⟨"x", pr, "Amazon Egypt", "u", ts⟩

def seq1 : List Product × Bool := save_best_deal [] (seqP 500 0)

def seq2 : List Product × Bool := save_best_deal seq1.1 (seqP 700 1)

def seq3 : List Product × Bool := save_best_deal seq2.1 (seqP 300 2)

def seq4 : List Product × Bool := save_best_deal seq3.1 (seqP 400 3)

/-- C2 counterexample: with an empty product name and an empty store no
record exists for the name, so the claim demands an update, but
`save_best_deal` returns early on a falsy name and writes nothing. -/
theorem C2_claim_false :
    lookup_min_price [] pNoName.name = none ∧
    (save_best_deal [] pNoName).2 = false ∧
    (save_best_deal [] pNoName).1 = [] := by decide

/-- C2 amended: for a product with a nonempty name, `save_best_deal`
replaces the `(name, website)` row and reports an update exactly when no
row with the name exists or the least stored price for the name is strictly
greater than the new price; otherwise (and always on an empty name) the
store is unchanged and no update is reported.  Recording 500, 700, 300,
400 in that order for one name leaves 300 stored in a single row, with the
write happening exactly twice (at 500 and at 300). -/
theorem C2_record_if_better :
    (∀ (db : List Product) (p : Product),
      (save_best_deal db p).2 = true ↔
        (p.name ≠ "" ∧ (lookup_min_price db p.name = none ∨
          ∃ m, lookup_min_price db p.name = some m ∧ p.price < m))) ∧
    (∀ (db : List Product) (p : Product),
      (save_best_deal db p).2 = false → (save_best_deal db p).1 = db) ∧
    (∀ (db : List Product) (p : Product),
      (save_best_deal db p).2 = true →
        (save_best_deal db p).1 = upsert db p) ∧
    (seq1.2 = true ∧ seq2.2 = false ∧ seq3.2 = true ∧ seq4.2 = false ∧
      lookup_min_price seq4.1 "x" = some 300 ∧
      (seq4.1.filter (fun r => r.name == "x")).length = 1) := by
  refine ⟨?_, ?_, ?_, by decide⟩
  · intro db p
    unfold save_best_deal
    by_cases hname : p.name = ""
    · rw [if_pos hname]
      simp [hname]
    · rw [if_neg hname]
      cases hlk : lookup_min_price db p.name with
      | none => simp [hname]
      | some m =>
          change (if p.price < m then (upsert db p, true) else (db, false)).2
              = true ↔ p.name ≠ "" ∧ (some m = none ∨
                ∃ m2, some m = some m2 ∧ p.price < m2)
          by_cases hlt : p.price < m
          · rw [if_pos hlt]
            simp only [true_iff]
            exact ⟨hname, Or.inr ⟨m, rfl, hlt⟩⟩
          · rw [if_neg hlt]
            constructor
            · intro h; cases h
            · rintro ⟨-, hor⟩
              rcases hor with h | ⟨m', hm', hlt'⟩
              · cases h
              · injection hm' with h2
                subst h2
                exact absurd hlt' hlt
  · intro db p
    unfold save_best_deal
    split
    · intro _; rfl
    · split
      · intro h; simp at h
      · split
        · intro h; simp at h
        · intro _; rfl
  · intro db p
    unfold save_best_deal
    split
    · intro h; simp at h
    · split
      · intro _; rfl
      · split
        · intro _; rfl
        · intro h; simp at h

/-- C2 witness: the amended statement applied at a concrete store and
product. -/
theorem C2_witness :
    ((save_best_deal [] (seqP 500 0)).2 = true ↔
      ((seqP 500 0).name ≠ "" ∧ (lookup_min_price [] (seqP 500 0).name = none ∨
        ∃ m, lookup_min_price [] (seqP 500 0).name = some m ∧
          (seqP 500 0).price < m))) ∧
    (save_best_deal [] pNoName).1 = [] ∧
    (save_best_deal [] (seqP 500 0)).1 = upsert [] (seqP 500 0) :=
  ⟨C2_record_if_better.1 [] (seqP 500 0),
   C2_record_if_better.2.1 [] pNoName (by decide),
   C2_record_if_better.2.2.1 [] (seqP 500 0) (by decide)⟩

/-! ## Claim C3 -/

def dupCheap : Product := ⟨"item", 10, "Noon Egypt", "u1", 0⟩

def dupDear : Product := ⟨"item", 20, "Noon Egypt", "u2", 0⟩

/-- C3 counterexample: two offers from the same source with identical (so
textually equivalent) normalized names and different prices both appear in
the ranked output, against the claim that only the cheaper one appears:
`search_products` performs no deduplication at all. -/
theorem C3_claim_false :
    search_products [] [dupCheap, dupDear] [] = [dupCheap, dupDear] ∧
    dupDear ∈ search_products [] [dupCheap, dupDear] [] ∧
    clean_text_for_comparison dupCheap.name.data
      = clean_text_for_comparison dupDear.name.data ∧
    dupCheap.website = dupDear.website ∧
    dupCheap.price < dupDear.price := by decide

/-- C3 amended: the ranked output never merges offers: it is a permutation
of the concatenated per-source offer lists, so textually equivalent offers
from the same source both appear, as do cross-source duplicates (the
deduplication helper `_exact_text_match` exists in the source but is never
called by the ranking path). -/
theorem C3_no_dedup :
    ∀ amazon noon carrefour : List Product,
      List.Perm (search_products amazon noon carrefour)
        (amazon ++ noon ++ carrefour) :=
  fun _ _ _ => sortByPrice_perm _

/-! ## Claim C4 -/

def tieNoon : Product := ⟨"A", 100, "Noon Egypt", "u1", 0⟩

def tieCarrefour : Product := ⟨"B", 100, "Carrefour Egypt", "u2", 0⟩

/-- C4 counterexample: two equal-priced offers from different sources keep
their arrival order (Noon is scraped before Carrefour), even though the
claimed source-name tie-break would put the Carrefour offer first
(its source name is lexicographically smaller). -/
theorem C4_claim_false :
    search_products [] [tieNoon] [tieCarrefour] = [tieNoon, tieCarrefour] ∧
    tieNoon.price = tieCarrefour.price ∧
    tieCarrefour.website.data < tieNoon.website.data ∧
    tieNoon.website ≠ tieCarrefour.website := by decide

/-- C4 amended: the ranked output is the concatenation of all sources'
offers sorted ascending by price, with all equal-price ties (same source or
not) kept in original arrival order: the output is a permutation of the
input, is sorted by price, and the offers at any fixed price appear in
exactly their input order.  Determinism is immediate because
`search_products` is a function of its inputs. -/
theorem C4_rank_stable :
    ∀ amazon noon carrefour : List Product,
      List.Perm (search_products amazon noon carrefour)
        (amazon ++ noon ++ carrefour) ∧
      (search_products amazon noon carrefour).Pairwise
        (fun a b => a.price ≤ b.price) ∧
      ∀ q : ℚ,
        (search_products amazon noon carrefour).filter
            (fun z => decide (z.price = q))
          = (amazon ++ noon ++ carrefour).filter
              (fun z => decide (z.price = q)) :=
  fun _ _ _ =>
    ⟨sortByPrice_perm _, sortByPrice_sorted _, fun q => sortByPrice_filter q _⟩

/-! ## Claim C5 -/

/-- C5: separator disambiguation of the price parser.  When the cleaned
string has both a comma and a period, every comma is removed and the parse
proceeds on the rest; when it has a comma but no period, each comma becomes
a period; and the three documented examples all parse to 1234.56. -/
theorem C5_separator_rules :
    (∀ s : List Char, ',' ∈ cleanPrice s → '.' ∈ cleanPrice s →
      extract_price s
        = parseFloatQ ((cleanPrice s).filter (fun c => !(c == ',')))) ∧
    (∀ s : List Char, ',' ∈ cleanPrice s → '.' ∉ cleanPrice s →
      extract_price s = parseFloatQ ((cleanPrice s).map commaToDot)) ∧
    extract_price "1234.56".data = some (123456 / 100 : ℚ) ∧
    extract_price "1,234.56".data = some (123456 / 100 : ℚ) ∧
    extract_price "1234,56".data = some (123456 / 100 : ℚ) := by
  have hval : ∀ s : List Char,
      parseFloatParts (handleSeparators (cleanPrice s)) = some (1234, 56, 2) →
      extract_price s = some (123456 / 100 : ℚ) := by
    intro s h
    unfold extract_price parseFloatQ
    rw [h]
    simp only [Option.map_some', Option.some.injEq, partsToQ]
    norm_num
  refine ⟨?_, ?_, hval _ (by decide), hval _ (by decide), hval _ (by decide)⟩
  · intro s hc hd
    unfold extract_price handleSeparators
    have hcond : ((cleanPrice s).contains ','
        && (cleanPrice s).contains '.') = true := by
      rw [Bool.and_eq_true]
      exact ⟨List.elem_eq_true_of_mem hc, List.elem_eq_true_of_mem hd⟩
    rw [if_pos hcond]
  · intro s hc hd
    unfold extract_price handleSeparators
    have hcond1 : ¬(((cleanPrice s).contains ','
        && (cleanPrice s).contains '.') = true) := by
      rw [Bool.and_eq_true]
      rintro ⟨-, h2⟩
      exact hd (List.elem_iff.mp h2)
    have hcond2 : (cleanPrice s).contains ',' = true :=
      List.elem_eq_true_of_mem hc
    rw [if_neg hcond1, if_pos hcond2]

/-- C5 witness: the two quantified rules applied at concrete strings. -/
theorem C5_witness :
    (',' ∈ cleanPrice "1,234.56".data ∧ '.' ∈ cleanPrice "1,234.56".data ∧
      extract_price "1,234.56".data
        = parseFloatQ ((cleanPrice "1,234.56".data).filter
            (fun c => !(c == ',')))) ∧
    (',' ∈ cleanPrice "1234,56".data ∧ '.' ∉ cleanPrice "1234,56".data ∧
      extract_price "1234,56".data
        = parseFloatQ ((cleanPrice "1234,56".data).map commaToDot)) :=
  ⟨⟨by decide, by decide,
    C5_separator_rules.1 "1,234.56".data (by decide) (by decide)⟩,
   ⟨by decide, by decide,
    C5_separator_rules.2.1 "1234,56".data (by decide) (by decide)⟩⟩

/-! ## Claim C6 -/

/-- C6 counterexample: the code parses a lone-comma string by turning the
comma into a decimal point, so "1,234" yields 1.234, not the claimed
1234. -/
theorem C6_claim_false :
    extract_price "1,234".data = some (1234 / 1000 : ℚ) ∧
    (1234 / 1000 : ℚ) ≠ 1234 := by
  constructor
  · have h : parseFloatParts (handleSeparators (cleanPrice "1,234".data))
        = some (1, 234, 3) := by decide
    unfold extract_price parseFloatQ
    rw [h]
    simp only [Option.map_some', Option.some.injEq, partsToQ]
    norm_num
  · norm_num

/-- C6 amended: `parsePrice("1,234")` returns 1.234: a comma with no
period anywhere in the cleaned string is treated as the decimal point (the
thousands-separator reading applies only when a period is also present),
exactly the ambiguity the specification records as an open question. -/
theorem C6_lone_comma :
    extract_price "1,234".data = some (1234 / 1000 : ℚ) := by
  have h : parseFloatParts (handleSeparators (cleanPrice "1,234".data))
      = some (1, 234, 3) := by decide
  unfold extract_price parseFloatQ
  rw [h]
  simp only [Option.map_some', Option.some.injEq, partsToQ]
  norm_num

/-! ## Claim C7 -/

/-- C7: the relevance gate.  Empty inputs are rejected; when the lowercased
joined query contains the phrase lenovo legion, acceptance forces all of
lenovo, legion, laptop to appear in the lowercased offer name; subject to
that gate, the check accepts exactly when the fraction of query terms
appearing in the offer name reaches 2/5 (the float threshold 0.4); and the
two documented examples evaluate as specified. -/
theorem C7_relevance :
    (∀ (n : List Char) (ts : List (List Char)), n = [] ∨ ts = [] →
      check_relevance n ts = false) ∧
    (∀ (n : List Char) (ts : List (List Char)),
      isSubstr ("lenovo legion".data) (lowerS (joinWords ts)) = true →
      check_relevance n ts = true →
      (isSubstr ("lenovo".data) (lowerS n) = true ∧
       isSubstr ("legion".data) (lowerS n) = true ∧
       isSubstr ("laptop".data) (lowerS n) = true)) ∧
    (∀ (n : List Char) (ts : List (List Char)), n ≠ [] → ts ≠ [] →
      (isSubstr ("lenovo legion".data) (lowerS (joinWords ts)) = true →
        (isSubstr ("lenovo".data) (lowerS n) = true ∧
         isSubstr ("legion".data) (lowerS n) = true ∧
         isSubstr ("laptop".data) (lowerS n) = true)) →
      (check_relevance n ts = true ↔
        (matchCount (lowerS n) ts : ℚ) / (ts.length : ℚ) ≥ 2 / 5)) ∧
    check_relevance "Lenovo Legion 5 Pro 16GB".data
      ["lenovo".data, "legion".data, "laptop".data] = false ∧
    check_relevance "Lenovo Legion 5 Pro Laptop 16GB".data
      ["lenovo".data, "legion".data, "laptop".data] = true := by
  refine ⟨?_, ?_, ?_, by decide, by decide⟩
  · intro n ts h
    unfold check_relevance
    rcases h with rfl | rfl
    · rw [if_pos (by rfl)]
    · rw [if_pos (by simp)]
  · intro n ts hcrit htrue
    by_cases h1 : (n.isEmpty || ts.isEmpty) = true
    · unfold check_relevance at htrue
      rw [if_pos h1] at htrue
      cases htrue
    · unfold check_relevance at htrue
      rw [if_neg h1] at htrue
      have hcr : criticalTerms ts
          = ["lenovo".data, "legion".data, "laptop".data] := by
        unfold criticalTerms
        rw [if_pos hcrit]
      rw [hcr] at htrue
      rcases Bool.eq_false_or_eq_true
          ((["lenovo".data, "legion".data, "laptop".data].all
            (fun t => isSubstr t (lowerS n)))) with hb | hb
      · have h3 := List.all_eq_true.mp hb
        exact ⟨h3 ("lenovo".data) (by simp),
          h3 ("legion".data) (by simp), h3 ("laptop".data) (by simp)⟩
      · rw [if_pos (by rw [hb]; rfl)] at htrue
        cases htrue
  · intro n ts hn hts hgate
    have h1 : (n.isEmpty || ts.isEmpty) = false := by
      rw [Bool.or_eq_false_iff]
      constructor <;> rw [Bool.eq_false_iff]
      · exact fun h => hn (List.isEmpty_iff.mp h)
      · exact fun h => hts (List.isEmpty_iff.mp h)
    have h2 : (!(criticalTerms ts).isEmpty
        && !((criticalTerms ts).all (fun t => isSubstr t (lowerS n))))
          = false := by
      unfold criticalTerms
      by_cases hcrit :
          isSubstr ("lenovo legion".data) (lowerS (joinWords ts)) = true
      · rw [if_pos hcrit]
        obtain ⟨ha, hb, hc⟩ := hgate hcrit
        simp [ha, hb, hc]
      · rw [if_neg hcrit]
        rfl
    unfold check_relevance
    rw [if_neg (by simp [h1]), if_neg (by simp [h2]), decide_eq_true_eq]
    have hlen : 0 < ts.length := List.length_pos.mpr hts
    have hlq : (0 : ℚ) < (ts.length : ℚ) := by exact_mod_cast hlen
    rw [ge_iff_le, div_le_div_iff₀ (by norm_num) hlq]
    constructor
    · intro h
      have h2 : (2 : ℚ) * (ts.length : ℚ) ≤ 5 * (matchCount (lowerS n) ts : ℚ) := by
        exact_mod_cast h
      linarith
    · intro h
      have h2 : (2 : ℚ) * (ts.length : ℚ) ≤ 5 * (matchCount (lowerS n) ts : ℚ) := by
        linarith
      exact_mod_cast h2

/-- C7 witness: the three quantified parts applied at concrete inputs. -/
theorem C7_witness :
    check_relevance [] ["x".data] = false ∧
    (isSubstr ("lenovo".data)
        (lowerS "gaming lenovo legion laptop".data) = true ∧
      isSubstr ("legion".data)
        (lowerS "gaming lenovo legion laptop".data) = true ∧
      isSubstr ("laptop".data)
        (lowerS "gaming lenovo legion laptop".data) = true) ∧
    (check_relevance "Lenovo Legion 5 Pro Laptop 16GB".data
        ["lenovo".data, "legion".data, "laptop".data] = true ↔
      (matchCount (lowerS "Lenovo Legion 5 Pro Laptop 16GB".data)
          ["lenovo".data, "legion".data, "laptop".data] : ℚ)
        / ((["lenovo".data, "legion".data, "laptop".data] :
            List (List Char)).length : ℚ) ≥ 2 / 5) :=
  ⟨C7_relevance.1 [] ["x".data] (Or.inl rfl),
   C7_relevance.2.1 ("gaming lenovo legion laptop".data)
     ["lenovo legion".data] (by decide) (by decide),
   C7_relevance.2.2.1 ("Lenovo Legion 5 Pro Laptop 16GB".data)
     ["lenovo".data, "legion".data, "laptop".data]
     (by decide) (by decide) (by decide)⟩

/-! ## Claim C8 -/

/-- C8 counterexample: the two documented inputs do NOT normalize to
despaced-equal strings: the hyphen of JR-BP560S survives normalization of
the first input and the second input has none. -/
theorem C8_claim_false :
    despace (clean_text_for_comparison "Joyroom JR-BP560S!!".data)
      ≠ despace (clean_text_for_comparison "joyroom jr bp560s".data) := by
  decide

/-- C8 amended: normalization keeps only lowercased alphanumerics, hyphens
and single separating spaces (every whitespace run collapses to one space,
with leading and trailing whitespace dropped); on the two documented
inputs it yields joyroom jr-bp560s and joyroom jr bp560s, which are not
equal after removing internal spaces because the hyphen is kept. -/
theorem C8_normalize :
    (∀ (t : List Char) (c : Char), c ∈ clean_text_for_comparison t →
      (c.isAlphanum || c == '-' || c == ' ') = true) ∧
    clean_text_for_comparison "Joyroom JR-BP560S!!".data
      = "joyroom jr-bp560s".data ∧
    clean_text_for_comparison "joyroom jr bp560s".data
      = "joyroom jr bp560s".data ∧
    clean_text_for_comparison "A  B!".data = "a b".data ∧
    despace (clean_text_for_comparison "Joyroom JR-BP560S!!".data)
      ≠ despace (clean_text_for_comparison "joyroom jr bp560s".data) := by
  refine ⟨?_, by decide, by decide, by decide, by decide⟩
  intro t c hc
  unfold clean_text_for_comparison at hc
  rcases mem_joinWords _ c hc with rfl | ⟨w, hw, hcw⟩
  · simp
  · rcases splitWsAux_mem _ [] w c hw hcw with ⟨hmem, hws⟩ | hnil
    · obtain ⟨c0, hc0, hlower⟩ := List.mem_map.mp hmem
      have hkeep : keepChar c0 = true := (List.mem_filter.mp hc0).2
      unfold keepChar at hkeep
      rw [Bool.or_eq_true, Bool.or_eq_true] at hkeep
      rcases hkeep with (hal | hwsp) | hdash
      · subst hlower
        rw [Bool.or_eq_true, Bool.or_eq_true]
        exact Or.inl (Or.inl (lowerChar_isAlphanum hal))
      · exfalso
        rw [lowerChar_of_isWhitespace hwsp] at hlower
        subst hlower
        rw [hwsp] at hws
        cases hws
      · have hc0d : c0 = '-' := by simpa using hdash
        subst hc0d
        subst hlower
        decide
    · exact absurd hnil (List.not_mem_nil c)

/-- C8 witness: the quantified character property applied at a concrete
normalized string and character. -/
theorem C8_witness :
    ('j'.isAlphanum || 'j' == '-' || 'j' == ' ') = true :=
  C8_normalize.1 ("Joyroom JR-BP560S!!".data) 'j' (by decide)

/-! ## Claim C9 -/

/-- C9: the price parser is total by construction (it returns an `Option`
and every branch is explicit), and it returns no value, never an error or
zero, whenever the cleaned string is empty or has no digit; a failing
numeric conversion is the remaining `none` branch of `parseFloatParts`. -/
theorem C9_parse_failure_none :
    (∀ s : List Char, cleanPrice s = [] → extract_price s = none) ∧
    (∀ s : List Char, (cleanPrice s).all (fun c => !c.isDigit) = true →
      extract_price s = none) := by
  constructor
  · intro s h
    apply extract_price_none_of_nodigit
    rw [h]
    rfl
  · exact fun s h => extract_price_none_of_nodigit h

/-- C9 witness: both failure rules applied at concrete strings (the first
cleans to the empty string, the second cleans to digit-free separators). -/
theorem C9_witness :
    extract_price "abc".data = none ∧ extract_price "EGP .,".data = none :=
  ⟨C9_parse_failure_none.1 "abc".data (by decide),
   C9_parse_failure_none.2 "EGP .,".data (by decide)⟩

/-! ## Claim C10 -/

lemma scrapeItems_singleton (w : String) (ts : ℕ) (it : RawItem) (q : ℚ)
    (hx : extract_price it.priceText.data = some q) (h0 : ¬(q = 0)) :
    scrapeItems w ts [it] = [⟨it.nameText, q, w, it.url, ts⟩] := by
  simp [scrapeItems, List.filterMap_cons, hx, h0]

/-- C10: a parsed price is never negative (only digits, periods and commas
survive the cleaning, so no sign can), and every product a scraper emits
has a strictly positive price: listings whose parsed price is missing or
exactly zero are skipped by the `if not price` guard. -/
theorem C10_positive_prices :
    (∀ (s : List Char) (q : ℚ), extract_price s = some q → 0 ≤ q) ∧
    (∀ (w : String) (ts : ℕ) (items : List RawItem) (p : Product),
      p ∈ scrapeItems w ts items → 0 < p.price) := by
  constructor
  · exact fun s q h => extract_price_nonneg h
  · intro w ts items p hp
    unfold scrapeItems at hp
    rw [List.mem_filterMap] at hp
    obtain ⟨it, hit, heq⟩ := hp
    cases hx : extract_price it.priceText.data with
    | none => rw [hx] at heq; cases heq
    | some pq =>
        rw [hx] at heq
        change (if pq = 0 then none
          else some (⟨it.nameText, pq, w, it.url, ts⟩ : Product)) = some p at heq
        by_cases h0 : pq = 0
        · rw [if_pos h0] at heq; cases heq
        · rw [if_neg h0] at heq
          injection heq with h2
          subst h2
          exact lt_of_le_of_ne (extract_price_nonneg hx) (Ne.symm h0)

/-- C10 witness: both parts applied at a concrete parsed price and a
concrete scraped item. -/
theorem C10_witness :
    (0 ≤ partsToQ (5, 0, 0)) ∧
    (0 < (⟨"n", partsToQ (5, 0, 0), "w", "u", 7⟩ : Product).price) :=
  ⟨C10_positive_prices.1 "5".data (partsToQ (5, 0, 0)) rfl,
   C10_positive_prices.2 "w" 7 [⟨"n", "5", "u"⟩]
     ⟨"n", partsToQ (5, 0, 0), "w", "u", 7⟩
     (by
       rw [scrapeItems_singleton "w" 7 ⟨"n", "5", "u"⟩ (partsToQ (5, 0, 0))
         rfl (by norm_num [partsToQ])]
       exact List.mem_singleton_self _)⟩
